import Mathlib

/-!
Verification development for the pkgcore metadata-cache and slot-conflict core.

The definitions below are a shallow embedding of:
  - src/pkgcore/cache/__init__.py   (class base: __getitem__, __setitem__,
    __delitem__, deconstruct_eclasses, reconstruct_eclasses)
  - src/pkgcore/graph/pigeonholes.py (class PigeonHoledSlots: fill_slotting,
    add_limiter, remove_slotting)

Python strings are modelled as lists of characters, Python dicts as
association lists with first-occurrence insertion order, Python exceptions
as explicit error values.  The snakeoil ProtectedDict collaborator (an
external dependency of the repository) is modelled by its documented
semantics: an overlay mapping that records new values and deleted keys
without ever touching the underlying mapping.
-/

/-- Python strings, modelled as lists of characters. -/
abbrev PyStr := List Char

/-- Python whitespace test for the characters str.strip removes. -/
def pyIsWs (c : Char) : Bool :=
  decide (c.toNat = 32) || decide (c.toNat = 9) || decide (c.toNat = 10) ||
  decide (c.toNat = 13) || decide (c.toNat = 11) || decide (c.toNat = 12)

/-- Python str.isdigit on a single character (ASCII digits). -/
def pyDigit (c : Char) : Bool :=
  decide (48 ≤ c.toNat) && decide (c.toNat ≤ 57)

/-- Python s.strip(): drop whitespace from both ends. -/
def pyStrip (s : PyStr) : PyStr :=
  (((s.dropWhile pyIsWs).reverse).dropWhile pyIsWs).reverse

/-- Python s.split("\t"): split on every tab, keeping empty pieces;
the empty string splits to one empty token. -/
def splitTab : PyStr → List PyStr
  | [] => [[]]
  | c :: rest =>
    match splitTab rest with
    | [] => [[]]
    | t :: ts => if c = '\t' then [] :: t :: ts else (c :: t) :: ts

/-- Python "\t".join(tokens). -/
def intercalateTab : List PyStr → PyStr
  | [] => []
  | [t] => t
  | t :: ts => t ++ '\t' :: intercalateTab ts

/-- Python str.isdigit on a whole string: nonempty and all digits. -/
def pyIsdigit (s : PyStr) : Bool :=
  !s.isEmpty && s.all pyDigit

/-- Decimal digit character for a digit value (values above 9 clamp to '9';
only ever applied to n % 10 or n < 10). -/
def digCh : Nat → Char
  | 0 => '0' | 1 => '1' | 2 => '2' | 3 => '3' | 4 => '4'
  | 5 => '5' | 6 => '6' | 7 => '7' | 8 => '8' | _ => '9'

/-- Decimal printing of a natural number, with explicit recursion fuel. -/
def n2s : Nat → Nat → PyStr
  | 0, _ => []
  | f + 1, n => if n < 10 then [digCh n] else n2s f (n / 10) ++ [digCh (n % 10)]

/-- Python str(n) for a natural number. -/
def natToStr (n : Nat) : PyStr := n2s (n + 1) n

/-- Python str(i) for an integer (the "%s" formatting used by the codec). -/
def intToStr (i : Int) : PyStr :=
  if i < 0 then '-' :: natToStr (-i).toNat else natToStr i.toNat

/-- Numeric value of a digit string (most significant digit first). -/
def strVal (s : PyStr) : Nat :=
  s.foldl (fun a c => a * 10 + (c.toNat - 48)) 0

/-- Python long(s): strip whitespace, optional sign, then decimal digits;
returns none where Python raises ValueError. -/
def pyLong (s : PyStr) : Option Int :=
  match pyStrip s with
  | [] => none
  | c :: rest =>
    if c = '-' then
      if pyIsdigit rest then some (-(strVal rest : Int)) else none
    else if c = '+' then
      if pyIsdigit rest then some ((strVal rest : Int)) else none
    else if pyIsdigit (c :: rest) then some ((strVal (c :: rest) : Int)) else none

/-- Python xrange(start, stop, step) for a positive step. -/
def pyRange (start stop step : Nat) : List Nat :=
  List.range' start ((stop - start + step - 1) / step) step

section AssocDict

variable {κ : Type} {α : Type} [DecidableEq κ]

/-- Python dict lookup d[k] on an association list (first match wins). -/
def alookup : List (κ × α) → κ → Option α
  | [], _ => none
  | (k1, v1) :: rest, k => if k1 = k then some v1 else alookup rest k

/-- Python d[k] = v: update the value in place if the key exists,
otherwise append the pair (dict insertion order semantics). -/
def dictInsert : List (κ × α) → κ → α → List (κ × α)
  | [], k, v => [(k, v)]
  | (k1, v1) :: rest, k, v =>
    if k1 = k then (k1, v) :: rest else (k1, v1) :: dictInsert rest k v

/-- Python del d[k]: drop every pair carrying the key. -/
def removeKey (d : List (κ × α)) (k : κ) : List (κ × α) :=
  d.filter (fun e => !(decide (e.1 = k)))

/-- Python k in d. -/
def containsKey (d : List (κ × α)) (k : κ) : Bool :=
  (alookup d k).isSome

end AssocDict

/-! ### The eclass text codec (pkgcore.cache.base, static methods) -/

/-- One eclass entry value: (source path, modification time). -/
abbrev EclassVal := PyStr × Int

/-- The in-memory eclass mapping (Python dict, insertion ordered). -/
abbrev EclassList := List (PyStr × EclassVal)

/-- The Python exceptions the embedded code can raise.  KeyError also
stands for the NotFound lookup errors of the spec taxonomy; the message
payloads of the source exceptions are elided. -/
inductive PyErr
  | readOnly
  | keyError
  | indexError
  | typeError
  | cacheCorruption (cpv : PyStr)
deriving DecidableEq

deriving instance DecidableEq for Except

/-- Errors arising inside the decode loops of reconstruct_eclasses:
ValueError (from long()) is caught by the surrounding except clause,
IndexError (token list overrun) is not. -/
inductive RunErr
  | valueError
  | indexError
deriving DecidableEq

/-- The source loop: for x in xrange(0, len, 3):
d[eclasses[x]] = (eclasses[x + 1], long(eclasses[x + 2])), evaluated in
Python order (index x+1, index x+2, long, index x). -/
def runTriples (toks : List PyStr) : List Nat → EclassList → Except RunErr EclassList
  | [], d => .ok d
  | x :: xs, d =>
    match toks[x + 1]? with
    | none => .error .indexError
    | some b =>
      match toks[x + 2]? with
      | none => .error .indexError
      | some c =>
        match pyLong c with
        | none => .error .valueError
        | some v =>
          match toks[x]? with
          | none => .error .indexError
          | some a => runTriples toks xs (dictInsert d a (b, v))

/-- The source loop: for x in xrange(0, len, 2):
d[eclasses[x]] = ('', long(eclasses[x + 1])). -/
def runPairs (toks : List PyStr) : List Nat → EclassList → Except RunErr EclassList
  | [], d => .ok d
  | x :: xs, d =>
    match toks[x + 1]? with
    | none => .error .indexError
    | some b =>
      match pyLong b with
      | none => .error .valueError
      | some v =>
        match toks[x]? with
        | none => .error .indexError
        | some a => runPairs toks xs (dictInsert d a ([], v))

/-- The try/except ValueError wrapper of reconstruct_eclasses: a ValueError
becomes CacheCorruption, an IndexError escapes unhandled. -/
def mapRunErr (cpv : PyStr) : Except RunErr EclassList → Except PyErr EclassList
  | .ok d => .ok d
  | .error .valueError => .error (.cacheCorruption cpv)
  | .error .indexError => .error .indexError

/-- The decode body of reconstruct_eclasses once the paths flag is fixed. -/
def decodeEclassTokens (cpv : PyStr) (eclasses : List PyStr) (paths : Bool) :
    Except PyErr EclassList :=
  mapRunErr cpv
    (if paths then runTriples eclasses (pyRange 0 eclasses.length 3) []
     else runPairs eclasses (pyRange 0 eclasses.length 2) [])

/-- base.deconstruct_eclasses: join "%s\t%s\t%s" per entry with tabs. -/
def deconstruct_eclasses (eclass_dict : EclassList) : PyStr :=
  intercalateTab
    (eclass_dict.map (fun e => e.1 ++ '\t' :: e.2.1 ++ '\t' :: intToStr e.2.2))

/-- base.reconstruct_eclasses: strip, split on tabs, pick the layout from
the token count (the paths heuristic inspects token 1 for every even
non-multiple-of-3 count), then decode. -/
def reconstruct_eclasses (cpv : PyStr) (eclass_string : PyStr) :
    Except PyErr EclassList :=
  let eclasses := splitTab (pyStrip eclass_string)
  if eclasses = [[]] then .ok []
  else if eclasses.length % 3 = 0 then decodeEclassTokens cpv eclasses true
  else if eclasses.length % 2 = 0 then
    decodeEclassTokens cpv eclasses (!(pyIsdigit (eclasses.getD 1 [])))
  else .error (.cacheCorruption cpv)

/-- Modelled from the spec: the legacy two-field (name, modTime) layout as
section 4.1 words it — pairs in order, path defaulting to the empty string,
any modification-time parse failure failing with CacheCorruption. -/
def specPairsGo (cpv : PyStr) : List PyStr → EclassList → Except PyErr EclassList
  | [], d => .ok d
  | name :: mt :: rest, d =>
    match pyLong mt with
    | some v => specPairsGo cpv rest (dictInsert d name ([], v))
    | none => .error (.cacheCorruption cpv)
  | [_], _ => .error (.cacheCorruption cpv)

/-! ### The metadata cache orchestration layer (pkgcore.cache.base) -/

/-- A metadata record value: either a plain string or the in-memory eclass
mapping living under the reserved key. -/
inductive PVal
  | str (s : PyStr)
  | emap (m : EclassList)
deriving DecidableEq

/-- A metadata record: a Python dict from key strings to values. -/
abbrev PRecord := List (PyStr × PVal)

/-- Python truthiness of a record value (empty string / empty dict are falsy). -/
def pyFalsy : PVal → Bool
  | .str s => s.isEmpty
  | .emap m => m.isEmpty

/-- The policy flags of a cache instance (class attributes plus the
readonly constructor argument). -/
structure CacheConf where
  autocommits : Bool
  cleanse_keys : Bool
  serialize_eclasses : Bool
  readonly : Bool
deriving DecidableEq

/-- The mutable counters of a cache instance. -/
structure CacheState where
  sync_rate : Nat
  updates : Nat
deriving DecidableEq

/-- The backend primitive invocations a cache operation performs, in order.
rawCommit stands for a concrete backend's commit implementation. -/
inductive BEvent
  | rawSet (cpv : PyStr) (rec : PRecord)
  | rawGet (cpv : PyStr)
  | rawDel (cpv : PyStr)
  | rawCommit
deriving DecidableEq

/-- snakeoil ProtectedDict (external dependency), modelled by its documented
semantics: an overlay over an untouched original mapping, recording fresh
writes in new and deletions in blocked. -/
structure ProtectedDict where
  orig : PRecord
  new : PRecord
  blocked : List PyStr

/-- ProtectedDict lookup d[k]. -/
def pdGet (pd : ProtectedDict) (k : PyStr) : Option PVal :=
  match alookup pd.new k with
  | some v => some v
  | none => if k ∈ pd.blocked then none else alookup pd.orig k

/-- ProtectedDict del d[k]: block the key without touching the original. -/
def pdDelKey (pd : ProtectedDict) (k : PyStr) : ProtectedDict :=
  ⟨pd.orig, removeKey pd.new k, k :: pd.blocked⟩

/-- ProtectedDict d[k] = v: write to the overlay, unblock the key. -/
def pdSet (pd : ProtectedDict) (k : PyStr) (v : PVal) : ProtectedDict :=
  ⟨pd.orig, dictInsert pd.new k v, pd.blocked.filter (fun k2 => !(decide (k2 = k)))⟩

/-- ProtectedDict iterkeys: original keys not blocked, then overlay-only keys. -/
def pdKeys (pd : ProtectedDict) : List PyStr :=
  (pd.orig.map Prod.fst).filter (fun k => !(decide (k ∈ pd.blocked))) ++
  (pd.new.map Prod.fst).filter (fun k => !(containsKey pd.orig k))

/-- The cleansing loop of __setitem__:
for k in d.iterkeys(): if not d[k]: del d[k]. -/
def cleanseFold : ProtectedDict → List PyStr → Except PyErr ProtectedDict
  | pd, [] => .ok pd
  | pd, k :: ks =>
    match pdGet pd k with
    | none => .error .keyError
    | some v => if pyFalsy v then cleanseFold (pdDelKey pd k) ks else cleanseFold pd ks

/-- The record __setitem__ hands to the backend: either a ProtectedDict
overlay or (when no transformation applies) the caller's record itself. -/
inductive DTarget
  | pd (p : ProtectedDict)
  | raw (r : PRecord)

/-- The reserved eclass key. -/
def eclassesKey : PyStr := String.toList "_eclasses_"

/-- The record-transformation phase of __setitem__ (cleansing and eclass
serialization), before _setitem is called. -/
def buildWorkingRecord (conf : CacheConf) (values : PRecord) : Except PyErr DTarget :=
  if conf.cleanse_keys then
    match cleanseFold ⟨values, [], []⟩ (pdKeys ⟨values, [], []⟩) with
    | .error e => .error e
    | .ok pd1 =>
      if conf.serialize_eclasses && containsKey values eclassesKey then
        match pdGet pd1 eclassesKey with
        | none => .error .keyError
        | some (.emap m) => .ok (.pd (pdSet pd1 eclassesKey (.str (deconstruct_eclasses m))))
        | some (.str _) => .error .typeError
      else .ok (.pd pd1)
  else if conf.serialize_eclasses && containsKey values eclassesKey then
    match pdGet ⟨values, [], []⟩ eclassesKey with
    | none => .error .keyError
    | some (.emap m) => .ok (.pd (pdSet ⟨values, [], []⟩ eclassesKey (.str (deconstruct_eclasses m))))
    | some (.str _) => .error .typeError
  else .ok (.raw values)

/-- The mapping a DTarget presents to the backend. -/
def dtView : DTarget → PRecord
  | .raw r => r
  | .pd pd =>
    (pd.orig.filter (fun e => !(decide (e.1 ∈ pd.blocked)) || containsKey pd.new e.1)).map
      (fun e => (e.1, (alookup pd.new e.1).getD e.2)) ++
    pd.new.filter (fun e => !(containsKey pd.orig e.1))

/-- The caller's record as observable after __setitem__: the embedding makes
any mutation of it explicit (a ProtectedDict never touches orig; the raw
branch performs no write before _setitem). -/
def callerOf (values : PRecord) : Except PyErr DTarget → PRecord
  | .ok (.pd pd) => pd.orig
  | .ok (.raw r) => r
  | .error _ => values

/-- Result of one __setitem__ call: outcome, new counters, backend events,
and the caller's record after the call. -/
structure SetRes where
  res : Except PyErr Unit
  st : CacheState
  events : List BEvent
  caller : PRecord
deriving DecidableEq

/-- base.__setitem__. -/
def cache_setitem (conf : CacheConf) (st : CacheState) (cpv : PyStr)
    (values : PRecord) : SetRes :=
  if conf.readonly then ⟨.error .readOnly, st, [], values⟩
  else
    match buildWorkingRecord conf values with
    | .error e => ⟨.error e, st, [], values⟩
    | .ok d =>
      let ev := [BEvent.rawSet cpv (dtView d)]
      if conf.autocommits then ⟨.ok (), st, ev, callerOf values (.ok d)⟩
      else
        let u := st.updates + 1
        if st.sync_rate < u then
          ⟨.ok (), ⟨st.sync_rate, 0⟩, ev ++ [BEvent.rawCommit], callerOf values (.ok d)⟩
        else ⟨.ok (), ⟨st.sync_rate, u⟩, ev, callerOf values (.ok d)⟩

/-- Result of one __delitem__ call. -/
structure DelRes where
  res : Except PyErr Unit
  st : CacheState
  events : List BEvent
deriving DecidableEq

/-- base.__delitem__: readonly check, counter bump before _delitem, commit
check after it (the commit check is not gated on autocommits here). -/
def cache_delitem (conf : CacheConf) (st : CacheState) (cpv : PyStr) : DelRes :=
  if conf.readonly then ⟨.error .readOnly, st, []⟩
  else
    let u := if conf.autocommits then st.updates else st.updates + 1
    if st.sync_rate < u then ⟨.ok (), ⟨st.sync_rate, 0⟩, [BEvent.rawDel cpv, BEvent.rawCommit]⟩
    else ⟨.ok (), ⟨st.sync_rate, u⟩, [BEvent.rawDel cpv]⟩

/-- Result of one __getitem__ call. -/
structure GetRes where
  res : Except PyErr PRecord
  st : CacheState
  events : List BEvent
deriving DecidableEq

/-- base.__getitem__: flush first if the pending counter exceeds sync_rate,
then read through _getitem (whose reply is the backend parameter) and
deserialize the eclass field. -/
def cache_getitem (conf : CacheConf) (st : CacheState) (cpv : PyStr)
    (backend : PRecord) : GetRes :=
  let flush := st.sync_rate < st.updates
  let st1 : CacheState := if flush then ⟨st.sync_rate, 0⟩ else st
  let ev0 : List BEvent := if flush then [BEvent.rawCommit] else []
  let ev := ev0 ++ [BEvent.rawGet cpv]
  if conf.serialize_eclasses && containsKey backend eclassesKey then
    match alookup backend eclassesKey with
    | some (.str es) =>
      match reconstruct_eclasses cpv es with
      | .ok m => ⟨.ok (dictInsert backend eclassesKey (.emap m)), st1, ev⟩
      | .error e => ⟨.error e, st1, ev⟩
    | some (.emap _) => ⟨.error .typeError, st1, ev⟩
    | none => ⟨.error .keyError, st1, ev⟩
  else ⟨.ok backend, st1, ev⟩

/-! ### The slot conflict tracker (pkgcore.graph.pigeonholes.PigeonHoledSlots) -/

/-- A concrete package occupant.  oid models Python object identity
(two separately constructed packages differ in oid even when value-equal);
key, slot and ver are the grouping key, slot identifier and remaining
content that the package __eq__ compares. -/
structure Obj where
  oid : Nat
  key : Nat
  slot : Nat
  ver : Nat
deriving DecidableEq

/-- A blocker: a restriction.base derivative with a grouping key and a
match predicate.  bid models object identity. -/
structure Blocker where
  bid : Nat
  key : Nat
  pred : Obj → Bool

/-- A bucket entry: the isinstance(x, restriction.base) branching of the
source becomes a sum type. -/
inductive Entry
  | obj (o : Obj)
  | blk (b : Blocker)

/-- Python == on packages: value equality on the content fields,
ignoring identity. -/
def pyEqObj (a b : Obj) : Bool :=
  decide (a.key = b.key) && decide (a.slot = b.slot) && decide (a.ver = b.ver)

/-- Python is on bucket entries, via the identity fields (a blocker's match
function is not part of its identity). -/
def pyIs : Entry → Entry → Bool
  | .obj a, .obj b => decide (a = b)
  | .blk a, .blk b => decide (a.bid = b.bid)
  | _, _ => false

/-- The .key attribute used to pick the bucket. -/
def entryKey : Entry → Nat
  | .obj o => o.key
  | .blk b => b.key

/-- The slot_dict registry. -/
abbrev TrackerState := List (Nat × List Entry)

/-- Does any blocker in the bucket match x (the sanity scan of the
re-insertion branch of fill_slotting)? -/
def anyBlockerMatch (bucket : List Entry) (x : Obj) : Bool :=
  bucket.any (fun e => match e with | .blk y => y.pred x | .obj _ => false)

/-- Outcome of the fill_slotting scan: fatal is the raise-Exception sanity
branch, early the return-[] re-insertion branch, confl the accumulated
conflict list reaching the end of the loop. -/
inductive FillRes
  | fatal
  | early
  | confl (l : List Entry)

/-- The scan loop of fill_slotting over the bucket, in insertion order.
An early return or the sanity raise discards conflicts found so far. -/
def fillScan (o : Obj) (full : List Entry) : List Entry → FillRes
  | [] => .confl []
  | .blk b :: rest =>
    if b.pred o then
      match fillScan o full rest with
      | .confl l => .confl (.blk b :: l)
      | r => r
    else fillScan o full rest
  | .obj x :: rest =>
    if x.slot = o.slot then
      if pyEqObj x o then
        if anyBlockerMatch full x then .fatal else .early
      else
        match fillScan o full rest with
        | .confl l => .confl (.obj x :: l)
        | r => r
    else fillScan o full rest

/-- PigeonHoledSlots.fill_slotting: scan for conflicts, insert only when
none were found; the setdefault call materializes the bucket either way.
The error value models the fatal raise of the sanity check. -/
def fill_slotting (s : TrackerState) (o : Obj) :
    Except Unit (List Entry × TrackerState) :=
  let bucket := (alookup s o.key).getD []
  match fillScan o bucket bucket with
  | .fatal => .error ()
  | .early => .ok ([], dictInsert s o.key bucket)
  | .confl [] => .ok ([], dictInsert s o.key (bucket ++ [.obj o]))
  | .confl (c :: cs) => .ok (c :: cs, dictInsert s o.key (bucket : List Entry))

/-- PigeonHoledSlots.add_limiter: collect the concrete occupants the blocker
matches, then append the blocker unconditionally.  (The TypeError guard of
the source is unrepresentable here: the argument is a Blocker by type.) -/
def add_limiter (s : TrackerState) (b : Blocker) : List Entry × TrackerState :=
  let bucket := (alookup s b.key).getD []
  let l := bucket.filter (fun e => match e with | .obj o => b.pred o | .blk _ => false)
  (l, dictInsert s b.key (bucket ++ [.blk b]))

/-- PigeonHoledSlots.remove_slotting: KeyError when the bucket is missing or
the entry is not present by identity; otherwise drop it, deleting the key
when the bucket becomes empty. -/
def remove_slotting (s : TrackerState) (e : Entry) : Except PyErr TrackerState :=
  match alookup s (entryKey e) with
  | none => .error .keyError
  | some bucket =>
    if (bucket.filter (fun x => !(pyIs x e))).length = bucket.length then .error .keyError
    else if (bucket.filter (fun x => !(pyIs x e))).isEmpty then .ok (removeKey s (entryKey e))
    else .ok (dictInsert s (entryKey e) (bucket.filter (fun x => !(pyIs x e))))

/-- The states reachable from an empty tracker by the three operations
(excluding executions that hit the fatal sanity raise). -/
inductive Reach : TrackerState → Prop
  | init : Reach []
  | fill {s : TrackerState} {o : Obj} {l : List Entry} {s2 : TrackerState} :
      Reach s → fill_slotting s o = .ok (l, s2) → Reach s2
  | limiter {s : TrackerState} {b : Blocker} {l : List Entry} {s2 : TrackerState} :
      Reach s → add_limiter s b = (l, s2) → Reach s2
  | remove {s : TrackerState} {e : Entry} {s2 : TrackerState} :
      Reach s → remove_slotting s e = .ok s2 → Reach s2

/-- Pairwise bucket condition: no two concrete occupants share a slot. -/
def slotOK (e1 e2 : Entry) : Prop :=
  ∀ x1 x2, e1 = Entry.obj x1 → e2 = Entry.obj x2 → x1.slot ≠ x2.slot

/-- Per key, at most one concrete occupant per distinct slot identifier. -/
def SlotUnique (s : TrackerState) : Prop :=
  ∀ k bucket, alookup s k = some bucket → List.Pairwise slotOK bucket

/-- The full data invariant claim C1 states: slot uniqueness plus no
occupant matched by a blocker registered under the same key. -/
def C1Inv (s : TrackerState) : Prop :=
  ∀ k bucket, alookup s k = some bucket →
    List.Pairwise slotOK bucket ∧
    ∀ x b, Entry.obj x ∈ bucket → Entry.blk b ∈ bucket → b.pred x = false

/-- No key maps to an empty bucket. -/
def NoEmptyBuckets (s : TrackerState) : Prop :=
  ∀ k, alookup s k ≠ some ([] : List Entry)

/-- The flat token stream of an eclass mapping: for each entry in order,
the class name, the path and the printed modification time.  Joining these
with tabs agrees with deconstruct_eclasses (lemma deconstruct_eq_flat). -/
def eclassTokens : EclassList → List PyStr
  | [] => []
  | e :: rest => e.1 :: e.2.1 :: intToStr e.2.2 :: eclassTokens rest

/-! ### Association-list dictionary lemmas -/

theorem alookup_dictInsert {κ α : Type} [DecidableEq κ] (d : List (κ × α)) (k : κ) (v : α)
    (k2 : κ) : alookup (dictInsert d k v) k2 = if k = k2 then some v else alookup d k2 := by
  induction d with
  | nil => by_cases h : k = k2 <;> simp [dictInsert, alookup, h]
  | cons e rest ih =>
    obtain ⟨k1, v1⟩ := e
    by_cases h1 : k1 = k
    · subst h1
      by_cases h2 : k1 = k2 <;> simp [dictInsert, alookup, h2]
    · by_cases h2 : k1 = k2
      · subst h2
        have hk : ¬ k = k1 := fun hh => h1 hh.symm
        simp [dictInsert, alookup, h1, hk]
      · simp [dictInsert, alookup, h1, h2, ih]

theorem alookup_removeKey {κ α : Type} [DecidableEq κ] (d : List (κ × α)) (k k2 : κ) :
    alookup (removeKey d k) k2 = if k = k2 then none else alookup d k2 := by
  induction d with
  | nil => by_cases h : k = k2 <;> simp [removeKey, alookup, h]
  | cons e rest ih =>
    obtain ⟨k1, v1⟩ := e
    by_cases h1 : k1 = k
    · subst h1
      by_cases h2 : k1 = k2
      · subst h2; simp [removeKey, alookup] at ih ⊢; simpa using ih
      · simp [removeKey, alookup, h2] at ih ⊢
        simpa [h2] using ih
    · by_cases h2 : k1 = k2
      · subst h2
        have hk : ¬ k = k1 := fun hh => h1 hh.symm
        simp [removeKey, alookup, h1, hk]
      · simp [removeKey, alookup, h1, h2] at ih ⊢; exact ih

/-! ### Tracker lemmas and invariant preservation -/

theorem fillScan_confl_mem (o : Obj) (full : List Entry) :
    ∀ rest l, fillScan o full rest = .confl l →
      ∀ x, Entry.obj x ∈ rest → x.slot = o.slot → Entry.obj x ∈ l := by
  intro rest
  induction rest with
  | nil => intro l h x hx _; simp at hx
  | cons e rest ih =>
    intro l h x hx hs
    cases e with
    | blk b =>
      rcases List.mem_cons.mp hx with he | he
      · exact absurd he (by simp)
      · by_cases hp : b.pred o
        · cases hsc : fillScan o full rest with
          | confl l2 =>
            simp [fillScan, hp, hsc] at h
            rw [← h]
            exact List.mem_cons_of_mem _ (ih l2 hsc x he hs)
          | fatal => simp [fillScan, hp, hsc] at h
          | early => simp [fillScan, hp, hsc] at h
        · simp [fillScan, hp] at h
          exact ih l h x he hs
    | obj x0 =>
      by_cases hslot : x0.slot = o.slot
      · by_cases heq : pyEqObj x0 o
        · by_cases hbm : anyBlockerMatch full x0 <;>
            simp [fillScan, hslot, heq, hbm] at h
        · cases hsc : fillScan o full rest with
          | confl l2 =>
            simp [fillScan, hslot, heq, hsc] at h
            rw [← h]
            rcases List.mem_cons.mp hx with he | he
            · rw [he]; exact List.mem_cons_self _ _
            · exact List.mem_cons_of_mem _ (ih l2 hsc x he hs)
          | fatal => simp [fillScan, hslot, heq, hsc] at h
          | early => simp [fillScan, hslot, heq, hsc] at h
      · rcases List.mem_cons.mp hx with he | he
        · injection he with h2; rw [h2] at hs; exact absurd hs hslot
        · simp [fillScan, hslot] at h
          exact ih l h x he hs

theorem bucket_pairwise_of_slotUnique {s : TrackerState} {k : Nat}
    (hs : SlotUnique s) : List.Pairwise slotOK ((alookup s k).getD []) := by
  cases hl : alookup s k with
  | none => simp
  | some b0 => simpa using hs k b0 hl

theorem fill_slotUnique {s : TrackerState} {o : Obj} {l : List Entry} {s2 : TrackerState}
    (hs : SlotUnique s) (h : fill_slotting s o = .ok (l, s2)) : SlotUnique s2 := by
  have hbP : List.Pairwise slotOK ((alookup s o.key).getD []) :=
    bucket_pairwise_of_slotUnique hs
  rw [fill_slotting] at h
  cases hsc : fillScan o ((alookup s o.key).getD []) ((alookup s o.key).getD []) with
  | fatal => rw [hsc] at h; exact absurd h (by simp)
  | early =>
    rw [hsc] at h
    simp at h
    rw [← h.2]
    intro k2 b2 hb2
    rw [alookup_dictInsert] at hb2
    by_cases hk : o.key = k2
    · rw [if_pos hk] at hb2
      injection hb2 with hb2; rw [← hb2]; exact hbP
    · rw [if_neg hk] at hb2; exact hs k2 b2 hb2
  | confl cl =>
    cases cl with
    | nil =>
      rw [hsc] at h
      simp at h
      rw [← h.2]
      intro k2 b2 hb2
      rw [alookup_dictInsert] at hb2
      by_cases hk : o.key = k2
      · rw [if_pos hk] at hb2
        injection hb2 with hb2
        rw [← hb2]
        rw [List.pairwise_append]
        refine ⟨hbP, by simp, ?_⟩
        intro e1 he1 e2 he2
        rcases List.mem_singleton.mp he2 with rfl
        intro x1 x2 hx1 hx2
        injection hx2 with hx2
        rw [← hx2]
        intro hcon
        have := fillScan_confl_mem o _ _ [] hsc x1 (by rw [hx1] at he1; exact he1) hcon
        simp at this
      · rw [if_neg hk] at hb2; exact hs k2 b2 hb2
    | cons c cs =>
      rw [hsc] at h
      simp at h
      rw [← h.2]
      intro k2 b2 hb2
      rw [alookup_dictInsert] at hb2
      by_cases hk : o.key = k2
      · rw [if_pos hk] at hb2
        injection hb2 with hb2; rw [← hb2]; exact hbP
      · rw [if_neg hk] at hb2; exact hs k2 b2 hb2

theorem limiter_slotUnique {s : TrackerState} {b : Blocker} {l : List Entry}
    {s2 : TrackerState} (hs : SlotUnique s) (h : add_limiter s b = (l, s2)) :
    SlotUnique s2 := by
  have hbP : List.Pairwise slotOK ((alookup s b.key).getD []) :=
    bucket_pairwise_of_slotUnique hs
  rw [add_limiter] at h
  simp at h
  rw [← h.2]
  intro k2 b2 hb2
  rw [alookup_dictInsert] at hb2
  by_cases hk : b.key = k2
  · rw [if_pos hk] at hb2
    injection hb2 with hb2
    rw [← hb2]
    rw [List.pairwise_append]
    refine ⟨hbP, by simp, ?_⟩
    intro e1 _ e2 he2
    rcases List.mem_singleton.mp he2 with rfl
    intro x1 x2 _ hx2
    exact absurd hx2 (by simp)
  · rw [if_neg hk] at hb2; exact hs k2 b2 hb2

theorem remove_slotUnique {s : TrackerState} {e : Entry} {s2 : TrackerState}
    (hs : SlotUnique s) (h : remove_slotting s e = .ok s2) : SlotUnique s2 := by
  cases hl : alookup s (entryKey e) with
  | none => simp only [remove_slotting, hl] at h; exact absurd h (by simp)
  | some bucket =>
    simp only [remove_slotting, hl] at h
    by_cases hlen : (bucket.filter (fun x => !(pyIs x e))).length = bucket.length
    · rw [if_pos hlen] at h; exact absurd h (by simp)
    · rw [if_neg hlen] at h
      by_cases hemp : (bucket.filter (fun x => !(pyIs x e))).isEmpty
      · rw [if_pos hemp] at h
        injection h with h
        rw [← h]
        intro k2 b2 hb2
        rw [alookup_removeKey] at hb2
        by_cases hk : entryKey e = k2
        · rw [if_pos hk] at hb2; exact absurd hb2 (by simp)
        · rw [if_neg hk] at hb2; exact hs k2 b2 hb2
      · rw [if_neg hemp] at h
        injection h with h
        rw [← h]
        intro k2 b2 hb2
        rw [alookup_dictInsert] at hb2
        by_cases hk : entryKey e = k2
        · rw [if_pos hk] at hb2
          injection hb2 with hb2
          rw [← hb2]
          exact List.Pairwise.sublist (List.filter_sublist bucket) (hs _ bucket hl)
        · rw [if_neg hk] at hb2; exact hs k2 b2 hb2

theorem fill_noEmpty {s : TrackerState} {o : Obj} {l : List Entry} {s2 : TrackerState}
    (hs : NoEmptyBuckets s) (h : fill_slotting s o = .ok (l, s2)) : NoEmptyBuckets s2 := by
  rw [fill_slotting] at h
  cases hl : alookup s o.key with
  | none =>
    rw [hl] at h
    simp [fillScan] at h
    rw [← h.2]
    intro k2
    rw [alookup_dictInsert]
    by_cases hk : o.key = k2
    · rw [if_pos hk]; simp
    · rw [if_neg hk]; exact hs k2
  | some b0 =>
    have hb0 : b0 ≠ [] := by
      intro hb; rw [hb] at hl; exact hs o.key hl
    rw [hl] at h
    simp only [Option.getD_some] at h
    cases hsc : fillScan o b0 b0 with
    | fatal => rw [hsc] at h; exact absurd h (by simp)
    | early =>
      rw [hsc] at h
      simp at h
      rw [← h.2]
      intro k2
      rw [alookup_dictInsert]
      by_cases hk : o.key = k2
      · rw [if_pos hk]; simp [hb0]
      · rw [if_neg hk]; exact hs k2
    | confl cl =>
      cases cl with
      | nil =>
        rw [hsc] at h
        simp at h
        rw [← h.2]
        intro k2
        rw [alookup_dictInsert]
        by_cases hk : o.key = k2
        · rw [if_pos hk]; simp
        · rw [if_neg hk]; exact hs k2
      | cons c cs =>
        rw [hsc] at h
        simp at h
        rw [← h.2]
        intro k2
        rw [alookup_dictInsert]
        by_cases hk : o.key = k2
        · rw [if_pos hk]; simp [hb0]
        · rw [if_neg hk]; exact hs k2

theorem limiter_noEmpty {s : TrackerState} {b : Blocker} {l : List Entry}
    {s2 : TrackerState} (hs : NoEmptyBuckets s) (h : add_limiter s b = (l, s2)) :
    NoEmptyBuckets s2 := by
  rw [add_limiter] at h
  simp at h
  rw [← h.2]
  intro k2
  rw [alookup_dictInsert]
  by_cases hk : b.key = k2
  · rw [if_pos hk]; simp
  · rw [if_neg hk]; exact hs k2

theorem remove_noEmpty {s : TrackerState} {e : Entry} {s2 : TrackerState}
    (hs : NoEmptyBuckets s) (h : remove_slotting s e = .ok s2) : NoEmptyBuckets s2 := by
  cases hl : alookup s (entryKey e) with
  | none => simp only [remove_slotting, hl] at h; exact absurd h (by simp)
  | some bucket =>
    simp only [remove_slotting, hl] at h
    by_cases hlen : (bucket.filter (fun x => !(pyIs x e))).length = bucket.length
    · rw [if_pos hlen] at h; exact absurd h (by simp)
    · rw [if_neg hlen] at h
      by_cases hemp : (bucket.filter (fun x => !(pyIs x e))).isEmpty
      · rw [if_pos hemp] at h
        injection h with h
        rw [← h]
        intro k2
        rw [alookup_removeKey]
        by_cases hk : entryKey e = k2
        · rw [if_pos hk]; simp
        · rw [if_neg hk]; exact hs k2
      · rw [if_neg hemp] at h
        injection h with h
        rw [← h]
        intro k2
        rw [alookup_dictInsert]
        by_cases hk : entryKey e = k2
        · rw [if_pos hk]
          intro hcon
          injection hcon with hcon
          rw [hcon] at hemp
          simp at hemp
        · rw [if_neg hk]; exact hs k2

theorem reach_noEmpty : ∀ s, Reach s → NoEmptyBuckets s := by
  intro s h
  induction h with
  | init => intro k; simp [alookup]
  | fill _ hstep ih => exact fill_noEmpty ih hstep
  | limiter _ hstep ih => exact limiter_noEmpty ih hstep
  | remove _ hstep ih => exact remove_noEmpty ih hstep

/-! ### Claim theorems for the slot conflict tracker -/

/-- C1 counterexample: from the empty tracker, fill_slotting of the occupant
(oid 0, key 5, slot 1) followed by add_limiter of a blocker on key 5 whose
predicate matches every package reaches a state whose bucket holds a concrete
occupant matched by a blocker registered under the same key, so the claimed
data invariant fails on a reachable state. -/
theorem tracker_c1_counterexample :
    Reach [(5, [Entry.obj ⟨0, 5, 1, 0⟩, Entry.blk ⟨0, 5, fun _ => true⟩])] ∧
    ¬ C1Inv [(5, [Entry.obj ⟨0, 5, 1, 0⟩, Entry.blk ⟨0, 5, fun _ => true⟩])] := by
  constructor
  · exact @Reach.limiter [(5, [Entry.obj ⟨0, 5, 1, 0⟩])] ⟨0, 5, fun _ => true⟩
      [Entry.obj ⟨0, 5, 1, 0⟩]
      [(5, [Entry.obj ⟨0, 5, 1, 0⟩, Entry.blk ⟨0, 5, fun _ => true⟩])]
      (@Reach.fill [] ⟨0, 5, 1, 0⟩ [] [(5, [Entry.obj ⟨0, 5, 1, 0⟩])] Reach.init rfl) rfl
  · intro hinv
    have h2 := (hinv 5 _ rfl).2 ⟨0, 5, 1, 0⟩ ⟨0, 5, fun _ => true⟩
      (List.mem_cons_self _ _) (List.mem_cons_of_mem _ (List.mem_cons_self _ _))
    simp at h2

/-- C1 (amended): in every tracker state reachable from empty by
fill_slotting, add_limiter and remove_slotting, for each grouping key at
most one concrete occupant exists per distinct slot identifier.  (The
blocker half of the original claim is refuted by tracker_c1_counterexample:
add_limiter appends its blocker even when it matches existing occupants,
returning them as conflicts instead of keeping the bucket blocker-free.) -/
theorem tracker_slot_invariant (s : TrackerState) (h : Reach s) : SlotUnique s := by
  induction h with
  | init => intro k b hb; simp [alookup] at hb
  | fill _ hstep ih => exact fill_slotUnique ih hstep
  | limiter _ hstep ih => exact limiter_slotUnique ih hstep
  | remove _ hstep ih => exact remove_slotUnique ih hstep

/-- Witness for tracker_slot_invariant: the invariant holds at the concrete
reachable state produced by one fill_slotting from empty. -/
theorem tracker_slot_invariant_witness :
    SlotUnique [(5, [Entry.obj ⟨0, 5, 1, 0⟩])] :=
  tracker_slot_invariant _
    (@Reach.fill [] ⟨0, 5, 1, 0⟩ [] [(5, [Entry.obj ⟨0, 5, 1, 0⟩])] Reach.init rfl)

/-- C7: on an empty tracker, filling occupant A (oid 1, key 7, slot 1)
returns [] and stores A; filling B (oid 2, same key and slot, different
content, hence not value-equal) returns [A] and does not insert B; filling
a fresh value-equal copy of A (oid 3) returns [] and leaves the bucket with
exactly the one entry A.  The last two conjuncts record the value-equality
relations the scenario relies on. -/
theorem tracker_fill_scenario :
    fill_slotting [] ⟨1, 7, 1, 10⟩ = .ok ([], [(7, [Entry.obj ⟨1, 7, 1, 10⟩])]) ∧
    fill_slotting [(7, [Entry.obj ⟨1, 7, 1, 10⟩])] ⟨2, 7, 1, 20⟩ =
      .ok ([Entry.obj ⟨1, 7, 1, 10⟩], [(7, [Entry.obj ⟨1, 7, 1, 10⟩])]) ∧
    fill_slotting [(7, [Entry.obj ⟨1, 7, 1, 10⟩])] ⟨3, 7, 1, 10⟩ =
      .ok ([], [(7, [Entry.obj ⟨1, 7, 1, 10⟩])]) ∧
    pyEqObj ⟨2, 7, 1, 20⟩ ⟨1, 7, 1, 10⟩ = false ∧
    pyEqObj ⟨3, 7, 1, 10⟩ ⟨1, 7, 1, 10⟩ = true :=
  ⟨rfl, rfl, rfl, rfl, rfl⟩

/-- C8: remove_slotting fails with KeyError (the NotFound of the spec
taxonomy) when no bucket exists for the entry's key and when the entry is
not present by identity in the bucket; otherwise it removes exactly the
identity-matching entries and deletes the key entirely when the bucket
becomes empty; and in every reachable state no key maps to an empty
bucket. -/
theorem tracker_remove_spec :
    (∀ (s : TrackerState) (e : Entry), alookup s (entryKey e) = none →
      remove_slotting s e = .error .keyError) ∧
    (∀ (s : TrackerState) (e : Entry) (bucket : List Entry),
      alookup s (entryKey e) = some bucket → (∀ x ∈ bucket, pyIs x e = false) →
      remove_slotting s e = .error .keyError) ∧
    (∀ (s : TrackerState) (e : Entry) (bucket : List Entry),
      alookup s (entryKey e) = some bucket → (∃ x ∈ bucket, pyIs x e = true) →
      remove_slotting s e = .ok
        (if (bucket.filter (fun x => !(pyIs x e))).isEmpty then removeKey s (entryKey e)
         else dictInsert s (entryKey e) (bucket.filter (fun x => !(pyIs x e))))) ∧
    (∀ s : TrackerState, Reach s → NoEmptyBuckets s) := by
  refine ⟨?_, ?_, ?_, reach_noEmpty⟩
  · intro s e hl
    simp only [remove_slotting, hl]
  · intro s e bucket hl hall
    have hfe : bucket.filter (fun x => !(pyIs x e)) = bucket :=
      List.filter_eq_self.mpr (fun a ha => by simp [hall a ha])
    simp only [remove_slotting, hl]
    rw [if_pos (by rw [hfe])]
  · intro s e bucket hl hex
    have hlt : (bucket.filter (fun x => !(pyIs x e))).length < bucket.length := by
      apply List.length_filter_lt_length_iff_exists.mpr
      obtain ⟨x, hx, hpx⟩ := hex
      exact ⟨x, hx, by simp [hpx]⟩
    simp only [remove_slotting, hl]
    rw [if_neg (Nat.ne_of_lt hlt)]
    by_cases hemp : (bucket.filter (fun x => !(pyIs x e))).isEmpty
    · rw [if_pos hemp, if_pos hemp]
    · rw [if_neg hemp, if_neg hemp]

/-- Witness for tracker_remove_spec: a missing bucket raises KeyError, and
removing the only occupant of a bucket deletes the key entirely. -/
theorem tracker_remove_spec_witness :
    remove_slotting [] (Entry.obj ⟨9, 3, 0, 0⟩) = .error .keyError ∧
    remove_slotting [(3, [Entry.obj ⟨9, 3, 0, 0⟩])] (Entry.obj ⟨9, 3, 0, 0⟩) = .ok [] := by
  constructor
  · exact tracker_remove_spec.1 [] (Entry.obj ⟨9, 3, 0, 0⟩) rfl
  · exact tracker_remove_spec.2.2.1 [(3, [Entry.obj ⟨9, 3, 0, 0⟩])] (Entry.obj ⟨9, 3, 0, 0⟩)
      [Entry.obj ⟨9, 3, 0, 0⟩] rfl ⟨Entry.obj ⟨9, 3, 0, 0⟩, List.mem_cons_self _ _, rfl⟩

/-! ### Cache lemmas -/

theorem alookup_isSome_of_mem_keys {κ α : Type} [DecidableEq κ] (d : List (κ × α)) (k : κ)
    (h : k ∈ d.map Prod.fst) : (alookup d k).isSome := by
  induction d with
  | nil => simp at h
  | cons e rest ih =>
    obtain ⟨k1, v1⟩ := e
    simp only [List.map_cons, List.mem_cons] at h
    simp only [alookup]
    by_cases he : k1 = k
    · rw [if_pos he]; rfl
    · rw [if_neg he]
      rcases h with h | h
      · exact absurd h.symm he
      · exact ih h

theorem mem_keys_of_alookup {κ α : Type} [DecidableEq κ] (d : List (κ × α)) (k : κ) (v : α)
    (h : alookup d k = some v) : k ∈ d.map Prod.fst := by
  induction d with
  | nil => simp [alookup] at h
  | cons e rest ih =>
    obtain ⟨k1, v1⟩ := e
    by_cases he : k1 = k
    · simp [he]
    · rw [alookup, if_neg he] at h
      simp
      right
      simpa using ih h

theorem pdKeys_mk (values : PRecord) : pdKeys ⟨values, [], []⟩ = values.map Prod.fst := by
  simp [pdKeys]

theorem cleanseFold_orig : ∀ (ks : List PyStr) (pd pd2 : ProtectedDict),
    cleanseFold pd ks = .ok pd2 → pd2.orig = pd.orig := by
  intro ks
  induction ks with
  | nil =>
    intro pd pd2 h
    simp only [cleanseFold] at h
    injection h with h
    rw [← h]
  | cons k ks ih =>
    intro pd pd2 h
    cases hg : pdGet pd k with
    | none => simp only [cleanseFold, hg] at h; simp at h
    | some v =>
      simp only [cleanseFold, hg] at h
      by_cases hf : pyFalsy v
      · rw [if_pos hf] at h
        exact ih (pdDelKey pd k) pd2 h
      · rw [if_neg hf] at h
        exact ih pd pd2 h

theorem buildWorkingRecord_caller : ∀ (conf : CacheConf) (values : PRecord) (d : DTarget),
    buildWorkingRecord conf values = .ok d → callerOf values (.ok d) = values := by
  intro conf values d h
  rw [buildWorkingRecord] at h
  by_cases hc : conf.cleanse_keys
  · rw [if_pos hc] at h
    cases hcf : cleanseFold ⟨values, [], []⟩ (pdKeys ⟨values, [], []⟩) with
    | error e => simp only [hcf] at h; simp at h
    | ok pd1 =>
      have horig : pd1.orig = values := cleanseFold_orig _ _ _ hcf
      simp only [hcf] at h
      by_cases hs : conf.serialize_eclasses && containsKey values eclassesKey
      · rw [if_pos hs] at h
        cases hg : pdGet pd1 eclassesKey with
        | none => simp only [hg] at h; simp at h
        | some v =>
          cases v with
          | emap m =>
            simp only [hg] at h
            injection h with h
            rw [← h]
            simp [callerOf, pdSet, horig]
          | str s => simp only [hg] at h; simp at h
      · rw [if_neg hs] at h
        injection h with h
        rw [← h]
        simp [callerOf, horig]
  · rw [if_neg hc] at h
    by_cases hs : conf.serialize_eclasses && containsKey values eclassesKey
    · rw [if_pos hs] at h
      cases hg : pdGet ⟨values, [], []⟩ eclassesKey with
      | none => simp only [hg] at h; simp at h
      | some v =>
        cases v with
        | emap m =>
          simp only [hg] at h
          injection h with h
          rw [← h]
          simp [callerOf, pdSet]
        | str s => simp only [hg] at h; simp at h
    · rw [if_neg hs] at h
      injection h with h
      rw [← h]
      simp [callerOf]

theorem cleanseFold_spec : ∀ (ks : List PyStr) (pd : ProtectedDict),
    pd.new = [] →
    (∀ k ∈ ks, (alookup pd.orig k).isSome) →
    (∀ k ∈ ks, k ∉ pd.blocked) →
    ks.Nodup →
    ∃ pd2, cleanseFold pd ks = .ok pd2 ∧ pd2.orig = pd.orig ∧ pd2.new = [] ∧
      (∀ k ∈ ks, ∀ v, alookup pd.orig k = some v → pyFalsy v = true → k ∈ pd2.blocked) ∧
      (∀ k ∈ pd.blocked, k ∈ pd2.blocked) := by
  intro ks
  induction ks with
  | nil =>
    intro pd h1 _ _ _
    exact ⟨pd, rfl, rfl, h1, by simp, fun k hk => hk⟩
  | cons k ks ih =>
    intro pd hnew hsome hblk hnd
    have hkb : k ∉ pd.blocked := hblk k (List.mem_cons_self _ _)
    have hg : pdGet pd k = alookup pd.orig k := by
      rw [pdGet, hnew]
      simp [alookup, hkb]
    cases hv : alookup pd.orig k with
    | none => exact absurd (hsome k (List.mem_cons_self _ _)) (by simp [hv])
    | some v =>
      by_cases hf : pyFalsy v
      · have step : cleanseFold pd (k :: ks) = cleanseFold (pdDelKey pd k) ks := by
          simp only [cleanseFold, hg, hv, if_pos hf]
        have hnew2 : (pdDelKey pd k).new = [] := by simp [pdDelKey, hnew, removeKey]
        have hsome2 : ∀ k2 ∈ ks, (alookup (pdDelKey pd k).orig k2).isSome := by
          intro k2 hk2
          exact hsome k2 (List.mem_cons_of_mem _ hk2)
        have hblk2 : ∀ k2 ∈ ks, k2 ∉ (pdDelKey pd k).blocked := by
          intro k2 hk2 hmem
          rcases List.mem_cons.mp hmem with rfl | hmem2
          · exact (List.nodup_cons.mp hnd).1 hk2
          · exact hblk k2 (List.mem_cons_of_mem _ hk2) hmem2
        obtain ⟨pd2, hrun, ho, hn2, hdel, hmono⟩ :=
          ih (pdDelKey pd k) hnew2 hsome2 hblk2 (List.Nodup.of_cons hnd)
        refine ⟨pd2, step.trans hrun, ho, hn2, ?_, ?_⟩
        · intro k2 hk2 v2 hv2 hf2
          rcases List.mem_cons.mp hk2 with rfl | hk2'
          · exact hmono k2 (List.mem_cons_self _ _)
          · exact hdel k2 hk2' v2 hv2 hf2
        · intro k2 hk2
          exact hmono k2 (List.mem_cons_of_mem _ hk2)
      · have step : cleanseFold pd (k :: ks) = cleanseFold pd ks := by
          simp only [cleanseFold, hg, hv, if_neg hf]
        obtain ⟨pd2, hrun, ho, hn2, hdel, hmono⟩ :=
          ih pd hnew (fun k2 hk2 => hsome k2 (List.mem_cons_of_mem _ hk2))
            (fun k2 hk2 => hblk k2 (List.mem_cons_of_mem _ hk2)) (List.Nodup.of_cons hnd)
        refine ⟨pd2, step.trans hrun, ho, hn2, ?_, hmono⟩
        intro k2 hk2 v2 hv2 hf2
        rcases List.mem_cons.mp hk2 with rfl | hk2'
        · rw [hv] at hv2
          injection hv2 with hv2
          rw [← hv2] at hf2
          exact absurd hf2 hf
        · exact hdel k2 hk2' v2 hv2 hf2

/-! ### Claim theorems for the metadata cache orchestration layer -/

/-- C5: with sync_rate 2 and autocommits false (cleanse_keys false and
serialize_eclasses true, the class defaults), three consecutive __setitem__
calls starting from a pending counter of zero perform exactly one backend
commit — on the third call, which pushes the counter past the threshold and
resets it — and a __getitem__ issued while exactly one write is pending
(counter 1) performs no flush. -/
theorem cache_batching_c5 :
    cache_setitem ⟨false, false, true, false⟩ ⟨2, 0⟩ (String.toList "p")
        [(String.toList "K", PVal.str (String.toList "v"))] =
      ⟨.ok (), ⟨2, 1⟩,
        [BEvent.rawSet (String.toList "p") [(String.toList "K", PVal.str (String.toList "v"))]],
        [(String.toList "K", PVal.str (String.toList "v"))]⟩ ∧
    cache_setitem ⟨false, false, true, false⟩ ⟨2, 1⟩ (String.toList "p")
        [(String.toList "K", PVal.str (String.toList "v"))] =
      ⟨.ok (), ⟨2, 2⟩,
        [BEvent.rawSet (String.toList "p") [(String.toList "K", PVal.str (String.toList "v"))]],
        [(String.toList "K", PVal.str (String.toList "v"))]⟩ ∧
    cache_setitem ⟨false, false, true, false⟩ ⟨2, 2⟩ (String.toList "p")
        [(String.toList "K", PVal.str (String.toList "v"))] =
      ⟨.ok (), ⟨2, 0⟩,
        [BEvent.rawSet (String.toList "p") [(String.toList "K", PVal.str (String.toList "v"))],
         BEvent.rawCommit],
        [(String.toList "K", PVal.str (String.toList "v"))]⟩ ∧
    cache_getitem ⟨false, false, true, false⟩ ⟨2, 1⟩ (String.toList "p")
        [(String.toList "K", PVal.str (String.toList "v"))] =
      ⟨.ok [(String.toList "K", PVal.str (String.toList "v"))], ⟨2, 1⟩,
        [BEvent.rawGet (String.toList "p")]⟩ := by
  refine ⟨?_, ?_, ?_, ?_⟩ <;> decide

/-- C6: on a read-only cache every __setitem__ and __delitem__ fails with
ReadOnly before reaching the backend: no backend event is emitted and the
counters are unchanged, for every coordinate, record and counter state. -/
theorem cache_readonly_rejects :
    ∀ (conf : CacheConf) (st : CacheState) (cpv : PyStr) (values : PRecord),
    conf.readonly = true →
    cache_setitem conf st cpv values = ⟨.error .readOnly, st, [], values⟩ ∧
    cache_delitem conf st cpv = ⟨.error .readOnly, st, []⟩ := by
  intro conf st cpv values h
  constructor
  · rw [cache_setitem, if_pos h]
  · rw [cache_delitem, if_pos h]

/-- Witness for cache_readonly_rejects at a concrete read-only cache. -/
theorem cache_readonly_rejects_witness :
    cache_setitem ⟨false, false, true, true⟩ ⟨0, 0⟩ [] [] =
      ⟨.error .readOnly, ⟨0, 0⟩, [], []⟩ ∧
    cache_delitem ⟨false, false, true, true⟩ ⟨0, 0⟩ [] = ⟨.error .readOnly, ⟨0, 0⟩, []⟩ :=
  cache_readonly_rejects ⟨false, false, true, true⟩ ⟨0, 0⟩ [] [] rfl

/-- C9: __setitem__ on a non-readonly cache never mutates the caller's
record, for every combination of the cleanse_keys and serialize_eclasses
flags and every outcome: the transformation works on a ProtectedDict
overlay (or performs no write at all), so the record observable by the
caller after the call equals the record supplied. -/
theorem cache_set_preserves_caller :
    ∀ (conf : CacheConf) (st : CacheState) (cpv : PyStr) (values : PRecord),
    conf.readonly = false →
    (cache_setitem conf st cpv values).caller = values := by
  intro conf st cpv values h
  rw [cache_setitem, if_neg (by simp [h])]
  cases hb : buildWorkingRecord conf values with
  | error e => simp only [hb]
  | ok d =>
    have hc := buildWorkingRecord_caller conf values d hb
    simp only [hb]
    by_cases hauto : conf.autocommits
    · simp [hauto, hc]
    · by_cases hsync : st.sync_rate < st.updates + 1
      · simp [hauto, hsync, hc]
      · simp [hauto, hsync, hc]

/-- Witness for cache_set_preserves_caller on a concrete record with both
transformation flags enabled. -/
theorem cache_set_preserves_caller_witness :
    (cache_setitem ⟨false, true, true, false⟩ ⟨2, 0⟩ []
      [(String.toList "IUSE", PVal.str [])]).caller =
    [(String.toList "IUSE", PVal.str [])] :=
  cache_set_preserves_caller ⟨false, true, true, false⟩ ⟨2, 0⟩ []
    [(String.toList "IUSE", PVal.str [])] rfl

/-- C10: with cleanse_keys and serialize_eclasses both enabled, __setitem__
on a non-readonly cache whose record maps the eclass key to a falsy value
fails with an unhandled KeyError: cleansing blocks the key on the overlay,
then the serialization step — gated on the key's presence in the original
record — reads the deleted key back from the overlay. -/
theorem cache_cleanse_serialize_keyerror :
    ∀ (ac : Bool) (st : CacheState) (cpv : PyStr) (values : PRecord) (v : PVal),
    (values.map Prod.fst).Nodup →
    alookup values eclassesKey = some v →
    pyFalsy v = true →
    (cache_setitem ⟨ac, true, true, false⟩ st cpv values).res = .error .keyError := by
  intro ac st cpv values v hnd hv hf
  have hsome : ∀ k ∈ values.map Prod.fst, (alookup values k).isSome :=
    fun k hk => alookup_isSome_of_mem_keys values k hk
  obtain ⟨pd2, hrun, ho, hn2, hdel, _⟩ :=
    cleanseFold_spec (values.map Prod.fst) ⟨values, [], []⟩ rfl hsome
      (fun k _ => List.not_mem_nil k) hnd
  have hkmem : eclassesKey ∈ values.map Prod.fst := mem_keys_of_alookup values eclassesKey v hv
  have hblocked : eclassesKey ∈ pd2.blocked := hdel eclassesKey hkmem v hv hf
  have hget2 : pdGet pd2 eclassesKey = none := by
    rw [pdGet, hn2]
    simp [alookup, hblocked]
  have hbuild : buildWorkingRecord ⟨ac, true, true, false⟩ values = .error .keyError := by
    rw [buildWorkingRecord]
    rw [if_pos (show (⟨ac, true, true, false⟩ : CacheConf).cleanse_keys = true from rfl)]
    rw [pdKeys_mk]
    simp only [hrun]
    rw [if_pos (show (true && containsKey values eclassesKey) = true by
      simp [containsKey, hv])]
    simp only [hget2]
  rw [cache_setitem, if_neg (by simp)]
  simp only [hbuild]

/-- Witness for cache_cleanse_serialize_keyerror on a record whose eclass
key holds the empty mapping. -/
theorem cache_cleanse_serialize_keyerror_witness :
    (cache_setitem ⟨false, true, true, false⟩ ⟨2, 0⟩ (String.toList "dev/foo-1")
      [(eclassesKey, PVal.emap [])]).res = .error .keyError :=
  cache_cleanse_serialize_keyerror false ⟨2, 0⟩ (String.toList "dev/foo-1")
    [(eclassesKey, PVal.emap [])] (PVal.emap []) (by decide) rfl rfl

/-! ### Decimal printing and parsing lemmas -/

theorem pyDigit_bounds (c : Char) (h : pyDigit c = true) : 48 ≤ c.toNat ∧ c.toNat ≤ 57 := by
  simp [pyDigit] at h
  exact h

theorem pyDigit_not_ws (c : Char) (h : pyDigit c = true) : pyIsWs c = false := by
  obtain ⟨h1, h2⟩ := pyDigit_bounds c h
  simp [pyIsWs]
  omega

theorem pyDigit_ne_tab (c : Char) (h : pyDigit c = true) : c ≠ '\t' := by
  intro he
  rw [he] at h
  exact absurd h (by decide)

theorem pyDigit_ne_dash (c : Char) (h : pyDigit c = true) : c ≠ '-' := by
  intro he
  rw [he] at h
  exact absurd h (by decide)

theorem pyDigit_ne_plus (c : Char) (h : pyDigit c = true) : c ≠ '+' := by
  intro he
  rw [he] at h
  exact absurd h (by decide)

theorem charVal_digCh (d : Nat) (h : d < 10) : (digCh d).toNat - 48 = d := by
  interval_cases d <;> rfl

theorem pyDigit_digCh (d : Nat) (h : d < 10) : pyDigit (digCh d) = true := by
  interval_cases d <;> rfl

theorem strVal_append_one (s : PyStr) (c : Char) :
    strVal (s ++ [c]) = strVal s * 10 + (c.toNat - 48) := by
  simp [strVal, List.foldl_append]

theorem n2s_digits : ∀ (f n : Nat), ∀ c ∈ n2s f n, pyDigit c = true := by
  intro f
  induction f with
  | zero => intro n c hc; simp [n2s] at hc
  | succ f ih =>
    intro n c hc
    rw [n2s] at hc
    by_cases h10 : n < 10
    · rw [if_pos h10] at hc
      simp at hc
      rw [hc]
      exact pyDigit_digCh n h10
    · rw [if_neg h10] at hc
      rcases List.mem_append.mp hc with hc | hc
      · exact ih _ c hc
      · simp at hc
        rw [hc]
        exact pyDigit_digCh _ (Nat.mod_lt _ (by omega))

theorem n2s_ne_nil (f n : Nat) (h : n < f) : n2s f n ≠ [] := by
  cases f with
  | zero => omega
  | succ f =>
    rw [n2s]
    by_cases h10 : n < 10 <;> simp [h10]

theorem strVal_n2s : ∀ (f n : Nat), n < f → strVal (n2s f n) = n := by
  intro f
  induction f with
  | zero => intro n h; omega
  | succ f ih =>
    intro n h
    rw [n2s]
    by_cases h10 : n < 10
    · rw [if_pos h10]
      simp [strVal]
      exact charVal_digCh n h10
    · rw [if_neg h10]
      rw [strVal_append_one]
      have hn10 : n / 10 < f := by
        have h1 : n / 10 < n := Nat.div_lt_self (by omega) (by omega)
        omega
      rw [ih (n / 10) hn10, charVal_digCh (n % 10) (Nat.mod_lt _ (by omega))]
      omega

theorem natToStr_digits (n : Nat) : ∀ c ∈ natToStr n, pyDigit c = true :=
  fun c hc => n2s_digits (n + 1) n c hc

theorem natToStr_ne_nil (n : Nat) : natToStr n ≠ [] :=
  n2s_ne_nil (n + 1) n (by omega)

theorem strVal_natToStr (n : Nat) : strVal (natToStr n) = n :=
  strVal_n2s (n + 1) n (by omega)

theorem mem_of_head? {α : Type} {l : List α} {c : α} (h : l.head? = some c) : c ∈ l := by
  cases l with
  | nil => simp at h
  | cons a t =>
    simp at h
    rw [h]
    exact List.mem_cons_self _ _

theorem mem_of_getLast? {α : Type} {l : List α} {c : α} (h : l.getLast? = some c) : c ∈ l := by
  rw [← List.head?_reverse] at h
  exact List.mem_reverse.mp (mem_of_head? h)

theorem pyStrip_eq_self (s : PyStr) (h1 : ∀ c, s.head? = some c → pyIsWs c = false)
    (h2 : ∀ c, s.getLast? = some c → pyIsWs c = false) : pyStrip s = s := by
  rw [pyStrip]
  have hd : s.dropWhile pyIsWs = s := by
    cases s with
    | nil => rfl
    | cons c t =>
      rw [List.dropWhile_cons, if_neg (by rw [h1 c rfl]; simp)]
  rw [hd]
  have hrev : s.reverse.dropWhile pyIsWs = s.reverse := by
    cases hs : s.reverse with
    | nil => rfl
    | cons c t =>
      have hlast : s.getLast? = some c := by
        rw [← List.head?_reverse, hs]
        rfl
      rw [List.dropWhile_cons, if_neg (by rw [h2 c hlast]; simp)]
  rw [hrev, List.reverse_reverse]

/-! ### split / join lemmas -/

theorem splitTab_ne_nil : ∀ s : PyStr, splitTab s ≠ [] := by
  intro s
  induction s with
  | nil => simp [splitTab]
  | cons c rest ih =>
    rw [splitTab]
    cases h : splitTab rest with
    | nil => exact absurd h ih
    | cons t ts => by_cases hc : c = '\t' <;> simp [hc]

theorem splitTab_tab_cons (s : PyStr) : splitTab ('\t' :: s) = [] :: splitTab s := by
  rw [splitTab]
  cases h : splitTab s with
  | nil => exact absurd h (splitTab_ne_nil s)
  | cons t ts => simp

theorem splitTab_append_notab : ∀ (t s : PyStr) (r : PyStr) (rs : List PyStr), '\t' ∉ t →
    splitTab s = r :: rs → splitTab (t ++ s) = (t ++ r) :: rs := by
  intro t
  induction t with
  | nil =>
    intro s r rs _ h
    simpa using h
  | cons c t2 ih =>
    intro s r rs hnt h
    have hc : c ≠ '\t' := fun hh => hnt (hh ▸ List.mem_cons_self c t2)
    have h2 := ih s r rs (fun hm => hnt (List.mem_cons_of_mem _ hm)) h
    rw [List.cons_append, splitTab]
    simp only [h2]
    rw [if_neg hc]
    simp

theorem splitTab_intercalateTab : ∀ (toks : List PyStr), toks ≠ [] →
    (∀ t ∈ toks, '\t' ∉ t) → splitTab (intercalateTab toks) = toks := by
  intro toks
  induction toks with
  | nil => intro h; exact absurd rfl h
  | cons t ts ih =>
    intro _ hnt
    cases ts with
    | nil =>
      have h := splitTab_append_notab t [] [] [] (hnt t (List.mem_cons_self _ _)) rfl
      simpa [intercalateTab] using h
    | cons t2 ts2 =>
      have hi : intercalateTab (t :: t2 :: ts2) = t ++ '\t' :: intercalateTab (t2 :: ts2) := rfl
      rw [hi]
      have h3 : splitTab (intercalateTab (t2 :: ts2)) = t2 :: ts2 :=
        ih (by simp) (fun x hx => hnt x (List.mem_cons_of_mem _ hx))
      have h2 : splitTab ('\t' :: intercalateTab (t2 :: ts2)) = [] :: t2 :: ts2 := by
        rw [splitTab_tab_cons, h3]
      have h4 := splitTab_append_notab t ('\t' :: intercalateTab (t2 :: ts2)) [] (t2 :: ts2)
        (hnt t (List.mem_cons_self _ _)) h2
      simpa using h4

theorem pyLong_natToStr (n : Nat) : pyLong (natToStr n) = some (n : Int) := by
  have hdig : ∀ c ∈ natToStr n, pyDigit c = true := natToStr_digits n
  have hstrip : pyStrip (natToStr n) = natToStr n :=
    pyStrip_eq_self _
      (fun c hc => pyDigit_not_ws c (hdig c (mem_of_head? hc)))
      (fun c hc => pyDigit_not_ws c (hdig c (mem_of_getLast? hc)))
  cases hnn : natToStr n with
  | nil => exact absurd hnn (natToStr_ne_nil n)
  | cons c rest =>
    have hdig2 : ∀ x ∈ c :: rest, pyDigit x = true := hnn ▸ hdig
    have hc : pyDigit c = true := hdig2 c (List.mem_cons_self _ _)
    rw [pyLong]
    rw [hnn] at hstrip
    simp only [hstrip, hnn]
    rw [if_neg (pyDigit_ne_dash c hc), if_neg (pyDigit_ne_plus c hc)]
    rw [if_pos (show pyIsdigit (c :: rest) = true by
      simp [pyIsdigit, List.all_eq_true]
      exact ⟨hc, fun x hx => hdig2 x (List.mem_cons_of_mem _ hx)⟩)]
    have hsv : strVal (c :: rest) = n := by
      rw [← hnn]
      exact strVal_natToStr n
    rw [hsv]

theorem pyLong_intToStr (mt : Int) (h : 0 ≤ mt) : pyLong (intToStr mt) = some mt := by
  rw [intToStr, if_neg (by omega)]
  rw [pyLong_natToStr]
  congr 1
  exact Int.toNat_of_nonneg h

theorem intToStr_digits (mt : Int) (h : 0 ≤ mt) : ∀ c ∈ intToStr mt, pyDigit c = true := by
  rw [intToStr, if_neg (by omega)]
  exact natToStr_digits mt.toNat

theorem intToStr_ne_nil (mt : Int) (h : 0 ≤ mt) : intToStr mt ≠ [] := by
  rw [intToStr, if_neg (by omega)]
  exact natToStr_ne_nil mt.toNat

/-! ### Structure of the encoded eclass string -/

theorem head?_append_of_ne_nil (l1 l2 : PyStr) (h : l1 ≠ []) : (l1 ++ l2).head? = l1.head? := by
  cases l1 with
  | nil => exact absurd rfl h
  | cons c cs => rfl

theorem deconstruct_cons_cons (e r : PyStr × EclassVal) (rs : EclassList) :
    deconstruct_eclasses (e :: r :: rs) =
      (e.1 ++ '\t' :: e.2.1 ++ '\t' :: intToStr e.2.2) ++
        '\t' :: deconstruct_eclasses (r :: rs) := rfl

theorem deconstruct_single (e : PyStr × EclassVal) :
    deconstruct_eclasses [e] = e.1 ++ '\t' :: e.2.1 ++ '\t' :: intToStr e.2.2 := rfl

theorem deconstruct_ne_nil (e : PyStr × EclassVal) (rest : EclassList) :
    deconstruct_eclasses (e :: rest) ≠ [] := by
  cases rest with
  | nil => rw [deconstruct_single]; simp
  | cons r rs => rw [deconstruct_cons_cons]; simp

theorem deconstruct_eq_flat : ∀ m : EclassList,
    deconstruct_eclasses m = intercalateTab (eclassTokens m) := by
  intro m
  induction m with
  | nil => rfl
  | cons e rest ih =>
    cases rest with
    | nil =>
      rw [deconstruct_single, show eclassTokens [e] = [e.1, e.2.1, intToStr e.2.2] from rfl]
      rw [show intercalateTab [e.1, e.2.1, intToStr e.2.2] =
        e.1 ++ '\t' :: (e.2.1 ++ '\t' :: intToStr e.2.2) from rfl]
      simp
    | cons r rs =>
      rw [deconstruct_cons_cons, ih]
      have hstep2 : intercalateTab (eclassTokens (e :: r :: rs)) =
          (e.1 ++ '\t' :: e.2.1 ++ '\t' :: intToStr e.2.2) ++
            '\t' :: intercalateTab (eclassTokens (r :: rs)) := by
        show e.1 ++ '\t' :: (e.2.1 ++ '\t' :: (intToStr e.2.2 ++
          '\t' :: intercalateTab (eclassTokens (r :: rs)))) = _
        simp
      rw [hstep2]

theorem eclassTokens_length : ∀ m : EclassList, (eclassTokens m).length = 3 * m.length := by
  intro m
  induction m with
  | nil => rfl
  | cons e rest ih =>
    rw [show eclassTokens (e :: rest) =
      e.1 :: e.2.1 :: intToStr e.2.2 :: eclassTokens rest from rfl]
    simp [ih]
    omega

theorem eclassTokens_no_tab (m : EclassList)
    (hmt : ∀ e ∈ m, 0 ≤ e.2.2)
    (hpath : ∀ e ∈ m, '\t' ∉ e.2.1)
    (hname : ∀ e ∈ m, '\t' ∉ e.1) :
    ∀ t ∈ eclassTokens m, '\t' ∉ t := by
  induction m with
  | nil => intro t ht; simp [eclassTokens] at ht
  | cons e rest ih =>
    intro t ht
    rw [show eclassTokens (e :: rest) =
      e.1 :: e.2.1 :: intToStr e.2.2 :: eclassTokens rest from rfl] at ht
    rcases List.mem_cons.mp ht with rfl | ht
    · exact hname e (List.mem_cons_self _ _)
    rcases List.mem_cons.mp ht with rfl | ht
    · exact hpath e (List.mem_cons_self _ _)
    rcases List.mem_cons.mp ht with rfl | ht
    · intro hmem
      have := intToStr_digits e.2.2 (hmt e (List.mem_cons_self _ _)) '\t' hmem
      exact absurd this (by decide)
    · exact ih (fun x hx => hmt x (List.mem_cons_of_mem _ hx))
        (fun x hx => hpath x (List.mem_cons_of_mem _ hx))
        (fun x hx => hname x (List.mem_cons_of_mem _ hx)) t ht

theorem deconstruct_head? (e : PyStr × EclassVal) (rest : EclassList) (hne : e.1 ≠ []) :
    (deconstruct_eclasses (e :: rest)).head? = e.1.head? := by
  cases rest with
  | nil =>
    rw [deconstruct_single]
    rw [show e.1 ++ '\t' :: e.2.1 ++ '\t' :: intToStr e.2.2 =
      e.1 ++ ('\t' :: e.2.1 ++ '\t' :: intToStr e.2.2) by simp]
    exact head?_append_of_ne_nil _ _ hne
  | cons r rs =>
    rw [deconstruct_cons_cons]
    rw [show (e.1 ++ '\t' :: e.2.1 ++ '\t' :: intToStr e.2.2) ++
        '\t' :: deconstruct_eclasses (r :: rs) =
      e.1 ++ ('\t' :: e.2.1 ++ '\t' :: intToStr e.2.2 ++
        '\t' :: deconstruct_eclasses (r :: rs)) by simp]
    exact head?_append_of_ne_nil _ _ hne

theorem deconstruct_getLast_digit : ∀ (m : EclassList), m ≠ [] →
    (∀ e ∈ m, 0 ≤ e.2.2) →
    ∀ c, (deconstruct_eclasses m).getLast? = some c → pyDigit c = true := by
  intro m
  induction m with
  | nil => intro hm; exact absurd rfl hm
  | cons e rest ih =>
    intro _ hmt c hl
    cases rest with
    | nil =>
      rw [deconstruct_single] at hl
      rw [show e.1 ++ '\t' :: e.2.1 ++ '\t' :: intToStr e.2.2 =
        (e.1 ++ '\t' :: e.2.1 ++ ['\t']) ++ intToStr e.2.2 by simp] at hl
      rw [List.getLast?_append_of_ne_nil _
        (intToStr_ne_nil e.2.2 (hmt e (List.mem_cons_self _ _)))] at hl
      exact intToStr_digits e.2.2 (hmt e (List.mem_cons_self _ _)) c (mem_of_getLast? hl)
    | cons e2 rest2 =>
      rw [deconstruct_cons_cons] at hl
      rw [List.getLast?_append_of_ne_nil _ (List.cons_ne_nil _ _)] at hl
      rw [show ('\t' :: deconstruct_eclasses (e2 :: rest2)) =
        ['\t'] ++ deconstruct_eclasses (e2 :: rest2) from rfl] at hl
      rw [List.getLast?_append_of_ne_nil _ (deconstruct_ne_nil e2 rest2)] at hl
      exact ih (by simp) (fun x hx => hmt x (List.mem_cons_of_mem _ hx)) c hl

/-! ### Index ranges and the decode loops -/

theorem range'_map_add (step : Nat) : ∀ (k s t : Nat),
    List.range' (s + t) k step = (List.range' s k step).map (fun x => x + t) := by
  intro k
  induction k with
  | zero => intro s t; rfl
  | succ k ih =>
    intro s t
    show (s + t) :: List.range' (s + t + step) k step =
      (s + t) :: (List.range' (s + step) k step).map (fun x => x + t)
    congr 1
    rw [show s + t + step = (s + step) + t by omega]
    exact ih (s + step) t

theorem pyRange_even (k : Nat) : pyRange 0 (2 * k) 2 = List.range' 0 k 2 := by
  rw [pyRange]
  congr 1
  omega

theorem pyRange_triples (k : Nat) : pyRange 0 (3 * k) 3 = List.range' 0 k 3 := by
  rw [pyRange]
  congr 1
  omega

theorem runPairs_shift (a b : PyStr) (T : List PyStr) :
    ∀ (idxs : List Nat) (d : EclassList),
    runPairs (a :: b :: T) (idxs.map (fun x => x + 2)) d = runPairs T idxs d := by
  intro idxs
  induction idxs with
  | nil => intro d; rfl
  | cons x xs ih =>
    intro d
    have h1 : (a :: b :: T)[x + 2 + 1]? = T[x + 1]? := by
      rw [show x + 2 + 1 = x + 1 + 1 + 1 by omega]
      rw [List.getElem?_cons_succ, List.getElem?_cons_succ]
    have h2 : (a :: b :: T)[x + 2]? = T[x]? := by
      rw [show x + 2 = x + 1 + 1 by omega]
      rw [List.getElem?_cons_succ, List.getElem?_cons_succ]
    simp only [List.map_cons, runPairs, h1, h2]
    cases ht1 : T[x + 1]? with
    | none => simp only [ht1]
    | some b2 =>
      simp only [ht1]
      cases hL : pyLong b2 with
      | none => simp only [hL]
      | some v =>
        simp only [hL]
        cases ht0 : T[x]? with
        | none => simp only [ht0]
        | some a2 =>
          simp only [ht0]
          exact ih (dictInsert d a2 ([], v))

theorem runTriples_shift (a b c : PyStr) (T : List PyStr) :
    ∀ (idxs : List Nat) (d : EclassList),
    runTriples (a :: b :: c :: T) (idxs.map (fun x => x + 3)) d = runTriples T idxs d := by
  intro idxs
  induction idxs with
  | nil => intro d; rfl
  | cons x xs ih =>
    intro d
    have h1 : (a :: b :: c :: T)[x + 3 + 1]? = T[x + 1]? := by
      rw [show x + 3 + 1 = x + 1 + 1 + 1 + 1 by omega]
      rw [List.getElem?_cons_succ, List.getElem?_cons_succ, List.getElem?_cons_succ]
    have h2 : (a :: b :: c :: T)[x + 3 + 2]? = T[x + 2]? := by
      rw [show x + 3 + 2 = x + 2 + 1 + 1 + 1 by omega]
      rw [List.getElem?_cons_succ, List.getElem?_cons_succ, List.getElem?_cons_succ]
    have h3 : (a :: b :: c :: T)[x + 3]? = T[x]? := by
      rw [show x + 3 = x + 1 + 1 + 1 by omega]
      rw [List.getElem?_cons_succ, List.getElem?_cons_succ, List.getElem?_cons_succ]
    simp only [List.map_cons, runTriples, h1, h2, h3]
    cases ht1 : T[x + 1]? with
    | none => simp only [ht1]
    | some tb =>
      simp only [ht1]
      cases ht2 : T[x + 2]? with
      | none => simp only [ht2]
      | some tc =>
        simp only [ht2]
        cases hL : pyLong tc with
        | none => simp only [hL]
        | some v =>
          simp only [hL]
          cases ht0 : T[x]? with
          | none => simp only [ht0]
          | some ta =>
            simp only [ht0]
            exact ih (dictInsert d ta (tb, v))

theorem runPairs_eq_specPairs : ∀ (k : Nat) (toks : List PyStr) (d : EclassList) (cpv : PyStr),
    toks.length = 2 * k →
    mapRunErr cpv (runPairs toks (List.range' 0 k 2) d) = specPairsGo cpv toks d := by
  intro k
  induction k with
  | zero =>
    intro toks d cpv hlen
    have h0 : toks = [] := List.length_eq_zero.mp (by omega)
    rw [h0]
    rfl
  | succ k ih =>
    intro toks d cpv hlen
    cases toks with
    | nil => simp at hlen
    | cons a rest =>
      cases rest with
      | nil => simp at hlen; omega
      | cons b T =>
        have hT : T.length = 2 * k := by
          simp [List.length_cons] at hlen
          omega
        rw [show List.range' 0 (k + 1) 2 = 0 :: List.range' 2 k 2 from rfl]
        have hsh : List.range' 2 k 2 = (List.range' 0 k 2).map (fun x => x + 2) := by
          have h := range'_map_add 2 k 0 2
          simpa using h
        have hb : (a :: b :: T)[0 + 1]? = some b := by simp
        have ha : (a :: b :: T)[0]? = some a := by simp
        simp only [runPairs, hb]
        cases hL : pyLong b with
        | none =>
          simp only [hL, specPairsGo]
          rfl
        | some v =>
          simp only [hL, ha, specPairsGo]
          rw [hsh, runPairs_shift]
          exact ih T (dictInsert d a ([], v)) cpv hT

theorem dictInsert_append_of_not_contains {κ α : Type} [DecidableEq κ]
    (d : List (κ × α)) (k : κ) (v : α) (h : containsKey d k = false) :
    dictInsert d k v = d ++ [(k, v)] := by
  induction d with
  | nil => rfl
  | cons e rest ih =>
    obtain ⟨k1, v1⟩ := e
    simp only [containsKey, alookup] at h
    by_cases h1 : k1 = k
    · rw [if_pos h1] at h
      simp at h
    · rw [if_neg h1] at h
      simp only [dictInsert, if_neg h1]
      rw [ih h]
      simp

theorem alookup_append_not_contains {κ α : Type} [DecidableEq κ]
    (d1 d2 : List (κ × α)) (k : κ) (h : containsKey d1 k = false) :
    alookup (d1 ++ d2) k = alookup d2 k := by
  induction d1 with
  | nil => rfl
  | cons e rest ih =>
    obtain ⟨k1, v1⟩ := e
    simp only [containsKey, alookup] at h
    by_cases h1 : k1 = k
    · rw [if_pos h1] at h
      simp at h
    · rw [if_neg h1] at h
      simp only [List.cons_append, alookup, if_neg h1]
      exact ih h

theorem foldl_dictInsert_eq : ∀ (m : EclassList) (d : EclassList),
    (m.map Prod.fst).Nodup → (∀ k ∈ m.map Prod.fst, containsKey d k = false) →
    m.foldl (fun d2 e => dictInsert d2 e.1 e.2) d = d ++ m := by
  intro m
  induction m with
  | nil => intro d _ _; simp
  | cons e rest ih =>
    intro d hnd hdisj
    simp only [List.foldl_cons]
    have he : containsKey d e.1 = false :=
      hdisj e.1 (by simp)
    rw [dictInsert_append_of_not_contains d e.1 e.2 he]
    have hnd2 : (rest.map Prod.fst).Nodup := by
      simp only [List.map_cons, List.nodup_cons] at hnd
      exact hnd.2
    have hnotin : e.1 ∉ rest.map Prod.fst := by
      simp only [List.map_cons, List.nodup_cons] at hnd
      exact hnd.1
    have hdisj2 : ∀ k ∈ rest.map Prod.fst, containsKey (d ++ [(e.1, e.2)]) k = false := by
      intro k hk
      have hne : e.1 ≠ k := fun hh => hnotin (hh ▸ hk)
      have h1 : containsKey d k = false := hdisj k (by simp [hk])
      simp only [containsKey] at h1 ⊢
      rw [show alookup (d ++ [(e.1, e.2)]) k =
        alookup ([(e.1, e.2)] : EclassList) k from by
          cases ha : alookup d k with
          | none =>
            exact alookup_append_not_contains d [(e.1, e.2)] k (by simp [containsKey, ha])
          | some v2 => rw [ha] at h1; simp at h1]
      simp [alookup, hne]
    rw [ih (d ++ [(e.1, e.2)]) hnd2 hdisj2]
    simp

theorem runTriples_flat : ∀ (m : EclassList) (d : EclassList),
    (∀ e ∈ m, 0 ≤ e.2.2) →
    runTriples (eclassTokens m) (List.range' 0 m.length 3) d =
      .ok (m.foldl (fun d2 e => dictInsert d2 e.1 e.2) d) := by
  intro m
  induction m with
  | nil => intro d _; rfl
  | cons e rest ih =>
    intro d hnn
    have hmt : 0 ≤ e.2.2 := hnn e (List.mem_cons_self _ _)
    rw [show eclassTokens (e :: rest) =
      e.1 :: e.2.1 :: intToStr e.2.2 :: eclassTokens rest from rfl]
    rw [show (e :: rest).length = rest.length + 1 from rfl]
    rw [show List.range' 0 (rest.length + 1) 3 = 0 :: List.range' 3 rest.length 3 from rfl]
    have hb : (e.1 :: e.2.1 :: intToStr e.2.2 :: eclassTokens rest)[0 + 1]? = some e.2.1 := by
      simp
    have hc : (e.1 :: e.2.1 :: intToStr e.2.2 :: eclassTokens rest)[0 + 2]? =
        some (intToStr e.2.2) := by simp
    have ha : (e.1 :: e.2.1 :: intToStr e.2.2 :: eclassTokens rest)[0]? = some e.1 := by
      simp
    simp only [runTriples, hb, hc, ha, pyLong_intToStr e.2.2 hmt]
    have hsh : List.range' 3 rest.length 3 =
        (List.range' 0 rest.length 3).map (fun x => x + 3) := by
      have h := range'_map_add 3 rest.length 0 3
      simpa using h
    rw [hsh, runTriples_shift]
    rw [ih (dictInsert d e.1 e.2) (fun x hx => hnn x (List.mem_cons_of_mem _ hx))]
    rfl

/-! ### Claim theorems for the eclass codec -/

/-- C3: decoding the two-token input "a\tb" (count 2: not divisible by 3,
divisible by 2, second token non-numeric, so the with-path layout is
chosen) does not fail with CacheCorruption as claimed: indexing token 2
overruns the list before the integer parse, raising an uncaught IndexError
(the except clause only converts ValueError into CacheCorruption). -/
theorem reconstruct_two_tokens_indexerror :
    reconstruct_eclasses (String.toList "cat/pkg-1") (String.toList "a\tb") =
      .error .indexError ∧
    (Except.error PyErr.indexError : Except PyErr EclassList) ≠
      .error (.cacheCorruption (String.toList "cat/pkg-1")) :=
  ⟨by decide, by decide⟩

/-- C2 counterexample: the one-entry eclass map sending the name "a\tb" to
path "p" and modification time 3 satisfies every hypothesis the claim
states (non-negative modification times, tab-free paths, distinct names),
yet reconstruct_eclasses applied to its deconstruction does not return the
map: the tab inside the class name yields 4 tokens and decoding fails. -/
theorem eclass_roundtrip_counterexample :
    (∀ e ∈ [((String.toList "a\tb"), ((String.toList "p"), (3 : Int)))],
      0 ≤ e.2.2 ∧ '\t' ∉ e.2.1) ∧
    ([((String.toList "a\tb"), ((String.toList "p"), (3 : Int)))].map Prod.fst).Nodup ∧
    reconstruct_eclasses (String.toList "cat/pkg-1")
        (deconstruct_eclasses [((String.toList "a\tb"), ((String.toList "p"), (3 : Int)))]) ≠
      .ok [((String.toList "a\tb"), ((String.toList "p"), (3 : Int)))] :=
  ⟨by decide, by decide, by decide⟩

/-- C2 (amended): for every EclassMap whose modification times are
non-negative, whose paths are free of the tab separator, and whose class
names are distinct, nonempty, tab-free and do not begin with a whitespace
character, reconstruct_eclasses inverts deconstruct_eclasses exactly. -/
theorem eclass_roundtrip_amended :
    ∀ (cpv : PyStr) (m : EclassList),
    (m.map Prod.fst).Nodup →
    (∀ e ∈ m, 0 ≤ e.2.2) →
    (∀ e ∈ m, '\t' ∉ e.2.1) →
    (∀ e ∈ m, e.1 ≠ [] ∧ '\t' ∉ e.1 ∧ e.1.head?.all (fun c => !(pyIsWs c)) = true) →
    reconstruct_eclasses cpv (deconstruct_eclasses m) = .ok m := by
  intro cpv m hnd hmt hpath hname
  cases m with
  | nil => rfl
  | cons e rest =>
    have hne1 : e.1 ≠ [] := (hname e (List.mem_cons_self _ _)).1
    have htok_ne : eclassTokens (e :: rest) ≠ [] := by
      rw [show eclassTokens (e :: rest) =
        e.1 :: e.2.1 :: intToStr e.2.2 :: eclassTokens rest from rfl]
      simp
    have hlen : (eclassTokens (e :: rest)).length = 3 * (e :: rest).length :=
      eclassTokens_length _
    have hnotab : ∀ t ∈ eclassTokens (e :: rest), '\t' ∉ t :=
      eclassTokens_no_tab _ hmt hpath (fun x hx => (hname x hx).2.1)
    have hstrip : pyStrip (deconstruct_eclasses (e :: rest)) =
        deconstruct_eclasses (e :: rest) := by
      apply pyStrip_eq_self
      · intro c hc
        rw [deconstruct_head? e rest hne1] at hc
        have hall := (hname e (List.mem_cons_self _ _)).2.2
        rw [hc] at hall
        simp [Option.all] at hall
        simpa using hall
      · intro c hc
        exact pyDigit_not_ws c (deconstruct_getLast_digit (e :: rest) (by simp) hmt c hc)
    have hsplit : splitTab (pyStrip (deconstruct_eclasses (e :: rest))) =
        eclassTokens (e :: rest) := by
      rw [hstrip, deconstruct_eq_flat]
      exact splitTab_intercalateTab _ htok_ne hnotab
    have hne2 : eclassTokens (e :: rest) ≠ [[]] := by
      intro hcon
      have hl2 := congrArg List.length hcon
      rw [hlen] at hl2
      simp at hl2
    simp only [reconstruct_eclasses, hsplit]
    rw [if_neg hne2]
    rw [if_pos (show (eclassTokens (e :: rest)).length % 3 = 0 by
      rw [hlen]; exact Nat.mul_mod_right 3 _)]
    rw [decodeEclassTokens, if_pos rfl]
    rw [hlen, pyRange_triples]
    rw [runTriples_flat (e :: rest) [] hmt]
    rw [foldl_dictInsert_eq (e :: rest) [] hnd (fun k _ => rfl)]
    rfl

/-- Witness for eclass_roundtrip_amended on a two-entry map with one real
path and one empty path. -/
theorem eclass_roundtrip_amended_witness :
    reconstruct_eclasses (String.toList "cat/pkg-1")
      (deconstruct_eclasses [(String.toList "eutils", (String.toList "/usr/e", 5)),
        (String.toList "libtool", ([], 7))]) =
    .ok [(String.toList "eutils", (String.toList "/usr/e", 5)),
      (String.toList "libtool", ([], 7))] :=
  eclass_roundtrip_amended (String.toList "cat/pkg-1")
    [(String.toList "eutils", (String.toList "/usr/e", 5)),
      (String.toList "libtool", ([], 7))]
    (by decide) (by decide) (by decide) (by decide)

/-- C4 counterexample: the 8-token input "a\tb\t3\t4\t5\t6\t7\t8" has a
token count that is even, not divisible by 3 and not divisible by 6, so
the claim says the legacy two-field layout is used — but the code inspects
the second token ("b", non-numeric) and picks the 3-field layout, whose
result (an uncaught IndexError) differs from the legacy-layout decode. -/
theorem eclass_layout_counterexample :
    (splitTab (pyStrip (String.toList "a\tb\t3\t4\t5\t6\t7\t8"))).length = 8 ∧
    8 % 3 ≠ 0 ∧ 8 % 2 = 0 ∧ 8 % 6 ≠ 0 ∧
    reconstruct_eclasses (String.toList "c/p-1") (String.toList "a\tb\t3\t4\t5\t6\t7\t8") ≠
      specPairsGo (String.toList "c/p-1")
        (splitTab (pyStrip (String.toList "a\tb\t3\t4\t5\t6\t7\t8"))) [] :=
  ⟨by decide, by decide, by decide, by decide, by decide⟩

/-- C4 (amended): for every input whose trimmed token list is nonempty with
count n, n mod 3 ≠ 0 and n mod 2 = 0, reconstruct_eclasses inspects the
second token regardless of divisibility by 6: if it is a pure non-negative
digit string the input is decoded in the legacy two-field layout with path
defaulting to the empty string, otherwise the 3-field with-path layout is
used. -/
theorem eclass_layout_amended :
    ∀ (cpv s : PyStr) (toks : List PyStr), toks = splitTab (pyStrip s) →
    toks ≠ [[]] → toks.length % 3 ≠ 0 → toks.length % 2 = 0 →
    (pyIsdigit (toks.getD 1 []) = true →
      reconstruct_eclasses cpv s = specPairsGo cpv toks []) ∧
    (pyIsdigit (toks.getD 1 []) = false →
      reconstruct_eclasses cpv s =
        mapRunErr cpv (runTriples toks (pyRange 0 toks.length 3) [])) := by
  intro cpv s toks htoks hne h3 h2
  have hrec : reconstruct_eclasses cpv s =
      decodeEclassTokens cpv toks (!(pyIsdigit (toks.getD 1 []))) := by
    simp only [reconstruct_eclasses, ← htoks]
    rw [if_neg hne, if_neg h3, if_pos h2]
  constructor
  · intro hd
    rw [hrec, hd]
    rw [show (!true) = false from rfl]
    rw [decodeEclassTokens]
    rw [if_neg (show ¬(false = true) by simp)]
    obtain ⟨k, hk⟩ : ∃ k, toks.length = 2 * k := ⟨toks.length / 2, by omega⟩
    rw [hk, pyRange_even]
    exact runPairs_eq_specPairs k toks [] cpv hk
  · intro hd
    rw [hrec, hd]
    rw [show (!false) = true from rfl]
    rw [decodeEclassTokens]
    rw [if_pos rfl]

/-- Witness for eclass_layout_amended: 4 tokens with numeric second token
decode in the legacy pair layout. -/
theorem eclass_layout_amended_witness :
    reconstruct_eclasses (String.toList "cat/pkg-1") (String.toList "a\t5\tb\t7") =
      specPairsGo (String.toList "cat/pkg-1")
        (splitTab (pyStrip (String.toList "a\t5\tb\t7"))) [] :=
  (eclass_layout_amended (String.toList "cat/pkg-1") (String.toList "a\t5\tb\t7")
    (splitTab (pyStrip (String.toList "a\t5\tb\t7"))) rfl (by decide) (by decide)
    (by decide)).1 (by decide)
